import Mathlib

/-!
Verification of the import-consolidation engine of the
`move-usings-to-global` repository.

The repository contains two variants of the engine:
* `src/unnamed/part_002` (namespace `Part002` below): extraction with a
  rich using-statement regex, and a grouped, sorted `GlobalUsings.cs`
  merge (`formatGlobalUsings`).
* `src/src/extension.ts` (namespace `ExtensionTs` below): extraction
  with a simpler regex and structure-preserving blank handling, a flat
  sorted merge, and the backup/rollback orchestration.

JavaScript strings are modelled as `List Char`; `split('\n')`,
`join('\n')`, `trim`, `startsWith`, `endsWith` and the regular
expressions of the source are modelled by executable functions below.
Every definition is translated from the source file named in its
doc comment.
-/

/-- Models the JavaScript whitespace class `\s` (restricted to the ASCII
whitespace characters that can occur in source text). -/
def isWs (c : Char) : Bool :=
  c == ' ' || c == '\t' || c == '\n' || c == '\r' || c == '\x0b' || c == '\x0c'

/-- Models `String.prototype.trim`: drop whitespace from both ends. -/
def trim (l : List Char) : List Char :=
  ((l.dropWhile isWs).reverse.dropWhile isWs).reverse

/-- Helper for `splitNl`: prepend a character to the first chunk. -/
def consHead (c : Char) : List (List Char) → List (List Char)
  | [] => [[c]]
  | l :: ls => (c :: l) :: ls

/-- Models `content.split('\n')`.  As in JavaScript, splitting the empty
string yields `[""]`. -/
def splitNl : List Char → List (List Char)
  | [] => [[]]
  | c :: cs => if c = '\n' then [] :: splitNl cs else consHead c (splitNl cs)

/-- Models `Array.prototype.join(sep)`. -/
def joinSep {α : Type} (sep : List α) : List (List α) → List α
  | [] => []
  | [l] => l
  | l :: ls => l ++ sep ++ joinSep sep ls

/-- Models `lines.join('\n')`. -/
def joinNl (ls : List (List Char)) : List Char := joinSep ['\n'] ls

/-- Split a string at the first occurrence of `sep`:
`splitFirst sep l = some (a, b)` iff `l = a ++ sep ++ b` with the
occurrence of `sep` leftmost.  Models `indexOf`/first-`split` uses in
the source. -/
def splitFirst (sep : List Char) : List Char → Option (List Char × List Char)
  | [] => if sep.isEmpty then some ([], []) else none
  | c :: cs =>
    if sep.isPrefixOf (c :: cs) then some ([], (c :: cs).drop sep.length)
    else
      match splitFirst sep cs with
      | none => none
      | some (a, b) => some (c :: a, b)

/-- Split a string at the last occurrence of `sep` (via `splitFirst` on
the reversed string).  Models `lastIndexOf` in `updateCsprojFile`. -/
def splitLast (sep l : List Char) : Option (List Char × List Char) :=
  match splitFirst sep.reverse l.reverse with
  | none => none
  | some (a, b) => some (b.reverse, a.reverse)

/-- Models `s.replace(';', '')`: JavaScript `replace` with a string
pattern removes only the first occurrence. -/
def removeSemi : List Char → List Char
  | [] => []
  | c :: cs => if c = ';' then cs else c :: removeSemi cs

/-- Models `s.split(sep)[1]`: the segment between the first and second
occurrences of `sep` (or everything after the first occurrence when it
is the only one); `none` when `sep` does not occur. -/
def secondSegment (sep l : List Char) : Option (List Char) :=
  match splitFirst sep l with
  | none => none
  | some (_, rest) =>
    match splitFirst sep rest with
    | none => some rest
    | some (a, _) => some a

/-- Models `String.prototype.localeCompare` as code-point lexicographic
comparison.  The claims settled with it only rely on properties every
collation shares (identical strings compare equal) or on it being some
fixed total order; the default `Array.prototype.sort` string comparison
(UTF-16 code-unit order) is the same function on the ASCII entries
involved. -/
def localeCompare : List Char → List Char → Int
  | [], [] => 0
  | [], _ :: _ => -1
  | _ :: _, [] => 1
  | a :: as, b :: bs =>
    if a = b then localeCompare as bs
    else if a.toNat < b.toNat then -1 else 1

/-- Result of `extractUsings` in either variant: the extracted (trimmed)
using statements in file order, and the rewritten file text. -/
structure ExtractResult where
  usings : List (List Char)
  updatedContent : List Char
deriving Repr, DecidableEq

/-- Is this line's trimmed form a namespace declaration?  Models
`l.trim().startsWith('namespace ')` (both variants). -/
def isNsLine (l : List Char) : Bool :=
  "namespace ".toList.isPrefixOf (trim l)

/-- Models `lines.findIndex(l => l.trim().startsWith('namespace '))`
followed by `if (idx === -1) idx = lines.length` (both variants):
the index of the first namespace line, or the length when none exists. -/
def findNsIdx : List (List Char) → Nat
  | [] => 0
  | l :: ls => if isNsLine l then 0 else findNsIdx ls + 1

/-- Deterministic model of the sub-pattern
`[^=;]+(?:\s*=\s*[^;]+)?` of the part_002 using regex, applied to the
text strictly before the terminating semicolon (which therefore
contains no `';'`).  The character class `[^=;]` admits whitespace, so
the pattern matches iff the text is nonempty and its first `'='` (if
any) is neither the first character nor the last. -/
def matchCore (core : List Char) : Bool :=
  let pre := core.takeWhile (· ≠ '=')
  match core.dropWhile (· ≠ '=') with
  | [] => true
  | _ :: r => !pre.isEmpty && !r.isEmpty

/-- Deterministic model of the part_002 regex after `using\s`: the
remainder must contain a semicolon whose suffix is all whitespace
(`;\s*$`); both halves of the pattern before it exclude `';'`, so that
semicolon is the first one; the part before it must satisfy
`matchCore` and be nonempty. -/
def matchBody (u : List Char) : Bool :=
  let core := u.takeWhile (· ≠ ';')
  match u.dropWhile (· ≠ ';') with
  | [] => false
  | _ :: tail => tail.all isWs && !core.isEmpty && matchCore core

/-- Models the part_002 test
`/^using\s+(static\s+)?[^=;]+(?:\s*=\s*[^;]+)?;\s*$/.test(trimmed)`.
Since `[^=;]` admits whitespace and the `static\s+` group is subsumed
by `[^=;]+`, the regex accepts exactly: the literal `using`, one
whitespace character, then a `matchBody` remainder (extra `\s+`
whitespace is absorbed by `[^=;]+`). -/
def isUsingLine (t : List Char) : Bool :=
  (t.take 5 == "using".toList) &&
    (match t.drop 5 with
     | [] => false
     | c :: rest => isWs c && matchBody rest)

/-- Models the extension.ts test `/^using\s+\S.*;$/.test(trimmed)`:
the literal `using`, at least one whitespace character, then a non-space
character followed by at least the terminating `';'` as last character. -/
def isUsingLineExt (t : List Char) : Bool :=
  (t.take 5 == "using".toList) &&
    (match t.drop 5 with
     | [] => false
     | c :: rest =>
       isWs c &&
         (match (c :: rest).dropWhile isWs with
          | [] => false
          | _ :: tail => tail.getLast? == some ';'))

namespace Part002

/-- Index of the first namespace line of `content`
(`src/unnamed/part_002`, lines 142-143). -/
def nsIdxOf (content : List Char) : Nat := findNsIdx (splitNl content)

/-- A line of the pre-namespace region survives extraction iff it is
neither a matching using line nor blank (`part_002` lines 145-153:
matching lines and blank lines are added to `linesToRemove`). -/
def keepLine (l : List Char) : Bool :=
  !(isUsingLine (trim l) || (trim l).isEmpty)

/-- The lines kept by `extractUsings` (`part_002` line 156): the
pre-namespace lines that are neither using lines nor blank, followed by
every line from the namespace line on, in order. -/
def keptLines (content : List Char) : List (List Char) :=
  let lines := splitNl content
  (lines.take (nsIdxOf content)).filter keepLine ++ lines.drop (nsIdxOf content)

/-- The using statements collected by `extractUsings` (`part_002`
lines 145-149): trimmed matching lines of the pre-namespace region, in
file order. -/
def usingsOf (content : List Char) : List (List Char) :=
  ((splitNl content).take (nsIdxOf content)).filterMap fun l =>
    if isUsingLine (trim l) then some (trim l) else none

/-- Models `extractUsings` of `src/unnamed/part_002` (lines 138-158). -/
def extractUsings (content : List Char) : ExtractResult :=
  ⟨usingsOf content, joinNl (keptLines content)⟩

end Part002

namespace ExtensionTs

/-- Index of the first namespace line (`src/src/extension.ts`,
lines 388-389). -/
def nsIdxOf (content : List Char) : Nat := findNsIdx (splitNl content)

/-- The mutated line array of `extractUsings` (`extension.ts`
lines 391-397): matching using lines of the pre-namespace region are
blanked out in place; all other lines are unchanged. -/
def blankedLines (content : List Char) : List (List Char) :=
  let lines := splitNl content
  (lines.take (nsIdxOf content)).map (fun l => if isUsingLineExt (trim l) then [] else l)
    ++ lines.drop (nsIdxOf content)

/-- Does some earlier (already mutated) line hold real code?  Models
`lines.slice(0, index).some(l => l.trim() !== '' && !l.trim().startsWith('using '))`
(`extension.ts` line 403). -/
def hasRealCode (pre : List (List Char)) : Bool :=
  pre.any fun l => !(trim l).isEmpty && !("using ".toList.isPrefixOf (trim l))

/-- The blank-line filter of `extractUsings` (`extension.ts`
lines 400-406): a blank line is kept iff its index is at or past the
namespace index, or some earlier mutated line is non-blank and does not
start with `using `; non-blank lines are always kept.  `i` is the index
of the first element of the third argument and `pre` the list of
already-scanned (mutated) lines. -/
def keepLines (nIdx : Nat) : Nat → List (List Char) → List (List Char) → List (List Char)
  | _, _, [] => []
  | i, pre, l :: ls =>
    if (trim l).isEmpty && !(decide (nIdx ≤ i) || hasRealCode pre) then
      keepLines nIdx (i + 1) (pre ++ [l]) ls
    else l :: keepLines nIdx (i + 1) (pre ++ [l]) ls

/-- The lines kept by the extension.ts `extractUsings`. -/
def keptLines (content : List Char) : List (List Char) :=
  keepLines (nsIdxOf content) 0 [] (blankedLines content)

/-- The using statements collected by the extension.ts `extractUsings`
(lines 391-396): trimmed matching lines of the pre-namespace region. -/
def usingsOf (content : List Char) : List (List Char) :=
  ((splitNl content).take (nsIdxOf content)).filterMap fun l =>
    if isUsingLineExt (trim l) then some (trim l) else none

/-- Models `extractUsings` of `src/src/extension.ts` (lines 385-410). -/
def extractUsings (content : List Char) : ExtractResult :=
  ⟨usingsOf content, joinNl (keptLines content)⟩

end ExtensionTs

/-- Models `getNamespace` of `src/unnamed/part_002` (lines 180-189):
strip a leading `global using ` marker, then take the target of a
`static` import, the right-hand side of an alias (`split(' = ')[1]`),
or the plain body, removing the first `';'`. -/
def getNamespace (u : List Char) : List Char :=
  let t := if "global using ".toList.isPrefixOf u then u.drop 13 else u
  if "static ".toList.isPrefixOf t then removeSemi (t.drop 7)
  else
    match secondSegment " = ".toList t with
    | some seg => removeSemi seg
    | none => removeSemi t

/-- The sort comparator of `formatGlobalUsings`
(`src/unnamed/part_002`, lines 161-169). -/
def usingCompare (a b : List Char) : Int :=
  let nsA := getNamespace a
  let nsB := getNamespace b
  if "System".toList.isPrefixOf nsA && !("System".toList.isPrefixOf nsB) then -1
  else if !("System".toList.isPrefixOf nsA) && "System".toList.isPrefixOf nsB then 1
  else if "Microsoft".toList.isPrefixOf nsA && !("Microsoft".toList.isPrefixOf nsB) then -1
  else if !("Microsoft".toList.isPrefixOf nsA) && "Microsoft".toList.isPrefixOf nsB then 1
  else localeCompare nsA nsB

/-- `a` may be placed before `b` by the comparator. -/
def usingLe (a b : List Char) : Bool := decide (usingCompare a b ≤ 0)

/-- The display-group tier `usingCompare` effectively assigns to an
entry: 0 for a `System` namespace root, 1 for `Microsoft`, 2 for the
fallback group.  Used to characterise the comparator. -/
def nsTier (u : List Char) : Nat :=
  if "System".toList.isPrefixOf (getNamespace u) then 0
  else if "Microsoft".toList.isPrefixOf (getNamespace u) then 1
  else 2

/-- Stable insertion: place `x` before the first element `y` with
`le x y = true`, after every earlier element.  Used to model the
ECMAScript stable `Array.prototype.sort`. -/
def insertStable {α : Type} (le : α → α → Bool) (x : α) : List α → List α
  | [] => [x]
  | y :: ys => if le x y then x :: y :: ys else y :: insertStable le x ys

/-- Stable sort modelling `Array.prototype.sort(comparator)`: ECMAScript
requires the sort to be stable, so for a consistent comparator the
result is the unique stable-sorted permutation, which this insertion
sort computes. -/
def insertionSort {α : Type} (le : α → α → Bool) : List α → List α
  | [] => []
  | x :: xs => insertStable le x (insertionSort le xs)

/-- Models `formatGlobalUsings` of `src/unnamed/part_002`
(lines 160-178): sort the entries with `usingCompare`, partition into
the System, Microsoft and fallback groups, keep only non-empty groups,
join each group with newlines, join the groups with blank separator
lines, and append a trailing newline. -/
def formatGlobalUsings (usingsSet : List (List Char)) : List Char :=
  let sortedUsings := insertionSort usingLe usingsSet
  let systemUsings := sortedUsings.filter fun u =>
    "System".toList.isPrefixOf (getNamespace u)
  let microsoftUsings := sortedUsings.filter fun u =>
    !("System".toList.isPrefixOf (getNamespace u))
      && "Microsoft".toList.isPrefixOf (getNamespace u)
  let otherUsings := sortedUsings.filter fun u =>
    !("System".toList.isPrefixOf (getNamespace u))
      && !("Microsoft".toList.isPrefixOf (getNamespace u))
  let groups := [systemUsings, microsoftUsings, otherUsings].filter fun g => !g.isEmpty
  joinSep ['\n', '\n'] (groups.map (joinSep ['\n'])) ++ ['\n']

/-- A JavaScript `Set<string>` is modelled as its insertion-ordered
element list; `add` appends iff the element is new. -/
def jsSetAdd (s : List (List Char)) (x : List Char) : List (List Char) :=
  if x ∈ s then s else s ++ [x]

/-- `forEach(x => set.add(x))` over a list. -/
def jsSetAddAll (s : List (List Char)) (xs : List (List Char)) : List (List Char) :=
  xs.foldl jsSetAdd s

/-- Parsing of an existing consolidated file (`part_002` lines 199-202
and `extension.ts` lines 565-568): trimmed lines starting with
`global using `. -/
def parseGlobalLines (content : List Char) : List (List Char) :=
  ((splitNl content).map trim).filter fun l => "global using ".toList.isPrefixOf l

/-- The merged entry set of `writeGlobalUsings` (both variants,
`part_002` lines 197-204, `extension.ts` lines 563-573): existing
globally-marked entries of the consolidated file (when it exists) plus
`global ` ++ each new import, with set semantics. -/
def mergedGlobalSet (existing : Option (List Char)) (usingsSet : List (List Char)) :
    List (List Char) :=
  let ex := match existing with
    | some c => jsSetAddAll [] (parseGlobalLines c)
    | none => []
  jsSetAddAll ex (usingsSet.map fun u => "global ".toList ++ u)

/-- The consolidated-file content produced by `writeGlobalUsings` of
`src/unnamed/part_002` (lines 191-208): the merged set rendered by
`formatGlobalUsings`. -/
def writeGlobalUsingsContent (existing : Option (List Char))
    (usingsSet : List (List Char)) : List Char :=
  formatGlobalUsings (mergedGlobalSet existing usingsSet)

/-- The default `Array.prototype.sort()` string order: UTF-16 code-unit
lexicographic comparison, here code-point comparison on the modelled
strings. -/
def codeUnitLe (a b : List Char) : Bool := decide (localeCompare a b ≤ 0)

/-- The consolidated-file content produced by `writeGlobalUsings` of
`src/src/extension.ts` (lines 558-579):
`Array.from(existing).sort().join('\n') + '\n'` — a flat sorted list,
no grouping and no blank separators. -/
def writeGlobalUsingsContentExt (existing : Option (List Char))
    (usingsSet : List (List Char)) : List Char :=
  joinSep ['\n'] (insertionSort codeUnitLe (mergedGlobalSet existing usingsSet)) ++ ['\n']

/-- Models `file.startsWith('.')` on an entry name. -/
def isDotName : List Char → Bool
  | '.' :: _ => true
  | _ => false

/-- A directory tree: named files and named directories with entries. -/
inductive FsEntry where
  | file (name : List Char)
  | dir (name : List Char) (entries : List FsEntry)

mutual

/-- One step of `findCsFilesRecursively` of `src/src/extension.ts`
(lines 323-355): a file is yielded when its full path ends with `.cs`
but not with `GlobalUsings.cs`; `bin`, `obj`, `.vs` and hidden
directories are pruned, other directories are recursed into. -/
def findCsInEntry (dir : List Char) : FsEntry → List (List Char)
  | .file name =>
    let filePath := dir ++ '/' :: name
    if ".cs".toList.isSuffixOf filePath
        && !("GlobalUsings.cs".toList.isSuffixOf filePath) then
      [filePath]
    else []
  | .dir name entries =>
    if name == "bin".toList || name == "obj".toList || name == ".vs".toList
        || isDotName name then
      []
    else findCsFilesRecursively (dir ++ '/' :: name) entries

/-- Models `findCsFilesRecursively` of `src/src/extension.ts`
(lines 323-355) over a listed directory. -/
def findCsFilesRecursively (dir : List Char) : List FsEntry → List (List Char)
  | [] => []
  | e :: rest => findCsInEntry dir e ++ findCsFilesRecursively dir rest

end

/-- The file system: an association list from paths to file contents. -/
abbrev FS := List (List Char × List Char)

/-- Read a file; `none` when the path does not exist. -/
def fsRead (fs : FS) (p : List Char) : Option (List Char) :=
  match fs.find? (fun e => e.1 == p) with
  | some e => some e.2
  | none => none

/-- Write a file, overwriting an existing entry or appending a new one. -/
def fsWrite : FS → List Char → List Char → FS
  | [], p, c => [(p, c)]
  | e :: fs, p, c => if e.1 == p then (p, c) :: fs else e :: fsWrite fs p c

/-- One planned file rewrite of `handleProject`
(`filesToModify` entries, `src/src/extension.ts` line 115). -/
structure FileMod where
  filePath : List Char
  updatedContent : List Char
deriving Repr, DecidableEq

/-- Apply the per-file rewrites of `applyChanges`
(`src/src/extension.ts` lines 549-552). -/
def writeMods (fs : FS) (mods : List FileMod) : FS :=
  mods.foldl (fun f m => fsWrite f m.filePath m.updatedContent) fs

/-- Models `rollbackChanges` (`src/src/extension.ts` lines 663-676):
write every backup's original content back, in order.  Note that it
only ever writes files; it never deletes one. -/
def rollbackChanges (fs : FS) (backups : List (List Char × List Char)) : FS :=
  backups.foldl (fun f b => fsWrite f b.1 b.2) fs

/-- The maximal whitespace run at the end of a string: the text matched
by `\s*` immediately before the first `<ItemGroup>` in
`updateCsprojFile`. -/
def wsSuffix (l : List Char) : List Char :=
  (l.reverse.takeWhile isWs).reverse

/-- Models `updateCsprojFile`'s content transformation
(`src/src/extension.ts` lines 581-629) for the fixed file name
`GlobalUsings.cs`: no-op when the name is already referenced; otherwise
insert a `Compile` item right after the first `<ItemGroup>`, or a fresh
`ItemGroup` before the last `</Project>`. -/
def updateCsprojContent (content : List Char) : List Char :=
  if (splitFirst "GlobalUsings.cs".toList content).isSome then content
  else
    match splitFirst "<ItemGroup>".toList content with
    | some (before, after) =>
      let indent := wsSuffix before
      before ++ "<ItemGroup>".toList
        ++ ('\n' :: (indent ++ "  <Compile Include=\"GlobalUsings.cs\" />".toList))
        ++ after
    | none =>
      match splitLast "</Project>".toList content with
      | some (before, after) =>
        before
          ++ "\n  <ItemGroup>\n    <Compile Include=\"GlobalUsings.cs\" />\n  </ItemGroup>\n\n".toList
          ++ "</Project>".toList ++ after
      | none => content

/-- The backup list of `handleProject` (`src/src/extension.ts`
lines 168-188): the current content of every file about to be
rewritten, plus the consolidated file's content when it exists; a
consolidated file that does not exist is NOT backed up. -/
def projectBackups (fs : FS) (mods : List FileMod) (globalUsingsPath : List Char) :
    List (List Char × List Char) :=
  (mods.filterMap fun m => (fsRead fs m.filePath).map fun c => (m.filePath, c))
    ++ (match fsRead fs globalUsingsPath with
        | some c => [(globalUsingsPath, c)]
        | none => [])

/-- Models the Backing-up / Applying / Validating phases of
`handleProject` (`src/src/extension.ts` lines 168-217) over the file
system model.  External failure is injected by the last two arguments:
`failAt = some k` means the write of the `k`-th file of `filesToModify`
throws (so only the first `k` rewrites happened before the exception is
caught and rolled back, lines 213-217); `failAt = none` means Applying
completes and `buildOk` is the `validateBuild` outcome (`false`
triggers the rollback of lines 202-207).  A failing backup read throws
before any mutation (lines 170-177), modelled by returning the file
system unchanged. -/
def applyPhase (fs : FS) (filesToModify : List FileMod)
    (projectDir csprojPath : List Char) (allUsings : List (List Char))
    (failAt : Option Nat) (buildOk : Bool) : FS :=
  if filesToModify.any (fun m => (fsRead fs m.filePath).isNone) then fs
  else
    let globalUsingsPath := projectDir ++ "/GlobalUsings.cs".toList
    let backups := projectBackups fs filesToModify globalUsingsPath
    match failAt with
    | some k => rollbackChanges (writeMods fs (filesToModify.take k)) backups
    | none =>
      let fs1 := writeMods fs filesToModify
      let fs2 :=
        if allUsings.isEmpty then fs1
        else
          fsWrite fs1 globalUsingsPath
            (writeGlobalUsingsContentExt (fsRead fs1 globalUsingsPath) allUsings)
      let fs3 :=
        match fsRead fs2 csprojPath with
        | none => fs2
        | some c =>
          let c2 := updateCsprojContent c
          if c2 == c then fs2 else fsWrite fs2 csprojPath c2
      if buildOk then fs3 else rollbackChanges fs3 backups

/-- The last backed-up content for a path, later entries taking
priority — the content a path holds after `rollbackChanges` replays the
backups in order. -/
def lastAssoc : List (List Char × List Char) → List Char → Option (List Char)
  | [], _ => none
  | b :: bks, p =>
    match lastAssoc bks p with
    | some c => some c
    | none => if b.1 == p then some b.2 else none

/-- Models the solution loop of `handleSolution`
(`src/src/extension.ts` lines 71-74): projects are processed in order
by `run`; `handleProject` rethrows after rolling back (line 216), so a
failure aborts the loop and propagates.  Returns the list of attempted
projects and whether the loop completed normally. -/
def handleSolutionLoop (run : List Char → Except Unit Unit) :
    List (List Char) → List (List Char) × Bool
  | [] => ([], true)
  | p :: ps =>
    match run p with
    | .ok _ =>
      let r := handleSolutionLoop run ps
      (p :: r.1, r.2)
    | .error _ => ([p], false)

/-- Models `handleSolutionAsync` of `src/unnamed/part_002` (line 20):
`Promise.all(csprojPaths.map(handleProjectAsync))` starts every
handler before any failure can propagate, so every project is
attempted; the aggregate succeeds iff all do. -/
def handleSolutionPromiseAll (run : List Char → Except Unit Unit)
    (ps : List (List Char)) : List (List Char) × Bool :=
  (ps, ps.all fun p => match run p with | .ok _ => true | .error _ => false)

/-- A project runner that fails exactly on `A.csproj`; used to witness
the halting behaviour of the extension.ts solution loop. -/
def failOnA : List Char → Except Unit Unit := fun p =>
  if p == "A.csproj".toList then Except.error () else Except.ok ()

/-- A project runner that always succeeds. -/
def allOk : List Char → Except Unit Unit := fun _ => Except.ok ()

/-- Sample project file system used to exercise the rollback model: one
source file and a manifest, and no consolidated file. -/
def sampleFs : FS :=
  [("P/a.cs".toList, "using X;\nnamespace A".toList),
   ("P/p.csproj".toList, "<Project>\n</Project>\n".toList)]

/-- The single planned rewrite for `sampleFs`. -/
def sampleMods : List FileMod := [⟨"P/a.cs".toList, "namespace A".toList⟩]

/-! ## Basic lemmas about the string model -/

theorem splitNl_ne_nil (s : List Char) : splitNl s ≠ [] := by
  induction s with
  | nil => simp [splitNl]
  | cons c cs ih =>
    simp only [splitNl]
    split
    · simp
    · cases h : splitNl cs with
      | nil => simp [consHead]
      | cons l ls => simp [consHead]

theorem not_nl_of_mem_splitNl {s l : List Char} (h : l ∈ splitNl s) : '\n' ∉ l := by
  induction s generalizing l with
  | nil =>
    simp only [splitNl, List.mem_singleton] at h
    subst h; simp
  | cons c cs ih =>
    simp only [splitNl] at h
    by_cases hc : c = '\n'
    · rw [if_pos hc] at h
      rcases List.mem_cons.mp h with rfl | h
      · simp
      · exact ih h
    · rw [if_neg hc] at h
      cases hsp : splitNl cs with
      | nil => exact absurd hsp (splitNl_ne_nil cs)
      | cons l0 ls =>
        rw [hsp, consHead] at h
        rcases List.mem_cons.mp h with rfl | h
        · intro hm
          rcases List.mem_cons.mp hm with h1 | h1
          · exact hc h1.symm
          · exact ih (hsp ▸ List.mem_cons_self l0 ls) h1
        · exact ih (hsp ▸ List.mem_cons_of_mem l0 h)

theorem splitNl_of_not_mem {l : List Char} (h : '\n' ∉ l) : splitNl l = [l] := by
  induction l with
  | nil => rfl
  | cons c cs ih =>
    simp only [List.mem_cons, not_or] at h
    have hc : ¬ c = '\n' := fun hc => h.1 hc.symm
    rw [splitNl, if_neg hc, ih h.2, consHead]

theorem splitNl_append_cons_nl {a : List Char} (h : '\n' ∉ a) (b : List Char) :
    splitNl (a ++ '\n' :: b) = a :: splitNl b := by
  induction a with
  | nil => simp [splitNl]
  | cons c cs ih =>
    simp only [List.mem_cons, not_or] at h
    have hc : ¬ c = '\n' := fun hc => h.1 hc.symm
    rw [List.cons_append, splitNl, if_neg hc, ih h.2, consHead]

theorem joinSep_cons₂ {α : Type} (sep x y : List α) (ls : List (List α)) :
    joinSep sep (x :: y :: ls) = x ++ sep ++ joinSep sep (y :: ls) := rfl

theorem splitNl_joinNl : ∀ {ls : List (List Char)}, ls ≠ [] →
    (∀ l ∈ ls, '\n' ∉ l) → splitNl (joinNl ls) = ls
  | [], h, _ => absurd rfl h
  | [x], _, hnl => by
    simpa [joinNl, joinSep] using splitNl_of_not_mem (hnl x (by simp))
  | x :: y :: ls, _, hnl => by
    have hx : '\n' ∉ x := hnl x (by simp)
    rw [joinNl, joinSep_cons₂, List.append_assoc, List.singleton_append,
      splitNl_append_cons_nl hx]
    rw [show joinSep ['\n'] (y :: ls) = joinNl (y :: ls) from rfl]
    rw [splitNl_joinNl (by simp) (fun l hl => hnl l (List.mem_cons_of_mem x hl))]

theorem consHead_append {c : Char} {xs : List (List Char)} (h : xs ≠ [])
    (ys : List (List Char)) : consHead c (xs ++ ys) = consHead c xs ++ ys := by
  cases xs with
  | nil => exact absurd rfl h
  | cons l ls => rfl

theorem splitNl_append_newline (l : List Char) :
    splitNl (l ++ ['\n']) = splitNl l ++ [[]] := by
  induction l with
  | nil => rfl
  | cons c cs ih =>
    by_cases hc : c = '\n'
    · subst hc
      rw [List.cons_append, splitNl, if_pos rfl, splitNl, if_pos rfl, ih,
        List.cons_append]
    · rw [List.cons_append, splitNl, if_neg hc, splitNl, if_neg hc, ih,
        consHead_append (splitNl_ne_nil cs)]

/-! ## Lemmas about the namespace-line index -/

theorem findNsIdx_le_length (ls : List (List Char)) : findNsIdx ls ≤ ls.length := by
  induction ls with
  | nil => simp [findNsIdx]
  | cons l ls ih =>
    rw [findNsIdx]
    split
    · simp
    · simp only [List.length_cons]; omega

theorem isNsLine_eq_false_of_mem_take {ls : List (List Char)} {l : List Char}
    (h : l ∈ ls.take (findNsIdx ls)) : isNsLine l = false := by
  induction ls with
  | nil => simp at h
  | cons x ls ih =>
    rw [findNsIdx] at h
    split at h
    · simp at h
    · rw [List.take_succ_cons] at h
      rcases List.mem_cons.mp h with rfl | h
      · simp_all
      · exact ih h

theorem findNsIdx_append {a : List (List Char)} (ha : ∀ l ∈ a, isNsLine l = false)
    {x : List Char} (hx : isNsLine x = true) (r : List (List Char)) :
    findNsIdx (a ++ x :: r) = a.length := by
  induction a with
  | nil => simp [findNsIdx, hx]
  | cons y a ih =>
    have hy : isNsLine y = false := ha y (by simp)
    rw [List.cons_append, findNsIdx, hy]
    rw [if_neg (by simp)]
    rw [ih (fun l hl => ha l (List.mem_cons_of_mem y hl)), List.length_cons]

theorem findNsIdx_eq_length {ls : List (List Char)}
    (h : ∀ l ∈ ls, isNsLine l = false) : findNsIdx ls = ls.length := by
  induction ls with
  | nil => rfl
  | cons x ls ih =>
    have hx : isNsLine x = false := h x (by simp)
    rw [findNsIdx, hx, if_neg (by simp),
      ih (fun l hl => h l (List.mem_cons_of_mem x hl)), List.length_cons]

theorem drop_findNsIdx {ls : List (List Char)} (h : findNsIdx ls < ls.length) :
    ∃ x xs, ls.drop (findNsIdx ls) = x :: xs ∧ isNsLine x = true := by
  induction ls with
  | nil => simp at h
  | cons y ls ih =>
    by_cases hy : isNsLine y
    · exact ⟨y, ls, by simp [findNsIdx, hy], hy⟩
    · rw [findNsIdx, if_neg hy] at h ⊢
      rw [List.length_cons] at h
      rw [List.drop_succ_cons]
      exact ih (by omega)

/-! ## Idempotence of extraction (both variants) -/

theorem filterMap_take_nsIdx_eq_nil {m : List Char → Bool} {fp suf : List (List Char)}
    (hfp : ∀ x ∈ fp, m (trim x) = false ∧ isNsLine x = false)
    (hsuf : suf = [] ∨ ∃ x xs, suf = x :: xs ∧ isNsLine x = true) :
    ((fp ++ suf).take (findNsIdx (fp ++ suf))).filterMap
      (fun l => if m (trim l) then some (trim l) else none) = [] := by
  rcases hsuf with rfl | ⟨x, xs, rfl, hx⟩
  · rw [List.append_nil, findNsIdx_eq_length (fun l hl => (hfp l hl).2),
      List.take_length, List.filterMap_eq_nil_iff]
    intro l hl
    simp [(hfp l hl).1]
  · rw [findNsIdx_append (fun l hl => (hfp l hl).2) hx, List.take_left,
      List.filterMap_eq_nil_iff]
    intro l hl
    simp [(hfp l hl).1]

theorem p2_updated_eq_joinNl (content : List Char) :
    (Part002.extractUsings content).updatedContent = joinNl (Part002.keptLines content) :=
  rfl

theorem mem_keptLines_p2 {content l} (h : l ∈ Part002.keptLines content) :
    l ∈ splitNl content := by
  unfold Part002.keptLines at h
  rcases List.mem_append.mp h with h | h
  · exact List.mem_of_mem_take (List.mem_filter.mp h).1
  · exact List.mem_of_mem_drop h

theorem p2_splitNl_updated {content : List Char} (h : Part002.keptLines content ≠ []) :
    splitNl ((Part002.extractUsings content).updatedContent) = Part002.keptLines content := by
  rw [p2_updated_eq_joinNl]
  exact splitNl_joinNl h fun l hl => not_nl_of_mem_splitNl (mem_keptLines_p2 hl)

theorem drop_nsIdx_shape (lines : List (List Char)) :
    lines.drop (findNsIdx lines) = []
      ∨ ∃ x xs, lines.drop (findNsIdx lines) = x :: xs ∧ isNsLine x = true := by
  rcases Nat.lt_or_ge (findNsIdx lines) lines.length with hlt | hge
  · exact Or.inr (drop_findNsIdx hlt)
  · exact Or.inl (List.drop_eq_nil_of_le hge)

theorem p2_second_extract (content : List Char) :
    (Part002.extractUsings ((Part002.extractUsings content).updatedContent)).usings = [] := by
  by_cases hk : Part002.keptLines content = []
  · have h0 : (Part002.extractUsings content).updatedContent = [] := by
      rw [p2_updated_eq_joinNl, hk]; rfl
    rw [h0]; decide
  · show Part002.usingsOf _ = []
    unfold Part002.usingsOf Part002.nsIdxOf
    rw [p2_splitNl_updated hk]
    unfold Part002.keptLines
    apply filterMap_take_nsIdx_eq_nil
    · intro x hx
      have hkeep := (List.mem_filter.mp hx).2
      have hmem := (List.mem_filter.mp hx).1
      simp only [Part002.keepLine, Bool.not_eq_true', Bool.or_eq_false_iff] at hkeep
      exact ⟨hkeep.1, isNsLine_eq_false_of_mem_take hmem⟩
    · exact drop_nsIdx_shape (splitNl content)

theorem keepLines_of_le {nIdx : Nat} :
    ∀ (ls : List (List Char)) (i : Nat) (pre : List (List Char)),
      nIdx ≤ i → ExtensionTs.keepLines nIdx i pre ls = ls := by
  intro ls
  induction ls with
  | nil => intro i pre h; rfl
  | cons l ls ih =>
    intro i pre h
    rw [ExtensionTs.keepLines]
    rw [if_neg (by simp [decide_eq_true h])]
    rw [ih (i + 1) (pre ++ [l]) (by omega)]

theorem keepLines_append (nIdx : Nat) :
    ∀ (a b : List (List Char)) (i : Nat) (pre : List (List Char)), i + a.length = nIdx →
      ∃ fp, ExtensionTs.keepLines nIdx i pre (a ++ b) = fp ++ b ∧ ∀ x ∈ fp, x ∈ a := by
  intro a
  induction a with
  | nil =>
    intro b i pre h
    refine ⟨[], ?_, by simp⟩
    simp only [List.nil_append]
    exact keepLines_of_le b i pre (by simp only [List.length_nil] at h; omega)
  | cons z a ih =>
    intro b i pre h
    rcases ih b (i + 1) (pre ++ [z]) (by simp only [List.length_cons] at h; omega)
      with ⟨fp, heq, hmem⟩
    rw [List.cons_append, ExtensionTs.keepLines]
    split
    · exact ⟨fp, heq, fun y hy => List.mem_cons_of_mem z (hmem y hy)⟩
    · refine ⟨z :: fp, ?_, ?_⟩
      · rw [heq, List.cons_append]
      · intro y hy
        rcases List.mem_cons.mp hy with rfl | hy
        · exact List.mem_cons_self y a
        · exact List.mem_cons_of_mem z (hmem y hy)

theorem mem_blankedLines_pre {content x : List Char}
    (h : x ∈ ((splitNl content).take (ExtensionTs.nsIdxOf content)).map
      (fun l => if isUsingLineExt (trim l) then [] else l)) :
    isUsingLineExt (trim x) = false ∧ isNsLine x = false ∧ '\n' ∉ x := by
  rcases List.mem_map.mp h with ⟨l, hl, rfl⟩
  by_cases hm : isUsingLineExt (trim l)
  · rw [if_pos hm]
    refine ⟨by decide, by decide, by simp⟩
  · rw [if_neg hm]
    exact ⟨Bool.eq_false_iff.mpr hm, isNsLine_eq_false_of_mem_take hl,
      not_nl_of_mem_splitNl (List.mem_of_mem_take hl)⟩

theorem ext_keptLines_shape (content : List Char) :
    ∃ fp, ExtensionTs.keptLines content
        = fp ++ (splitNl content).drop (ExtensionTs.nsIdxOf content)
      ∧ ∀ x ∈ fp, isUsingLineExt (trim x) = false ∧ isNsLine x = false ∧ '\n' ∉ x := by
  have hlen : (((splitNl content).take (ExtensionTs.nsIdxOf content)).map
      (fun l => if isUsingLineExt (trim l) then [] else l)).length
      = ExtensionTs.nsIdxOf content := by
    rw [List.length_map, List.length_take]
    exact Nat.min_eq_left (findNsIdx_le_length _)
  rcases keepLines_append (ExtensionTs.nsIdxOf content)
      (((splitNl content).take (ExtensionTs.nsIdxOf content)).map
        (fun l => if isUsingLineExt (trim l) then [] else l))
      ((splitNl content).drop (ExtensionTs.nsIdxOf content)) 0 []
      (by rw [hlen]; omega) with ⟨fp, heq, hmem⟩
  refine ⟨fp, ?_, fun x hx => mem_blankedLines_pre (hmem x hx)⟩
  unfold ExtensionTs.keptLines ExtensionTs.blankedLines
  exact heq

theorem ext_updated_eq_joinNl (content : List Char) :
    (ExtensionTs.extractUsings content).updatedContent
      = joinNl (ExtensionTs.keptLines content) := rfl

theorem ext_second_extract (content : List Char) :
    (ExtensionTs.extractUsings ((ExtensionTs.extractUsings content).updatedContent)).usings
      = [] := by
  rcases ext_keptLines_shape content with ⟨fp, heq, hfp⟩
  by_cases hk : ExtensionTs.keptLines content = []
  · have h0 : (ExtensionTs.extractUsings content).updatedContent = [] := by
      rw [ext_updated_eq_joinNl, hk]; rfl
    rw [h0]; decide
  · have hsplit : splitNl ((ExtensionTs.extractUsings content).updatedContent)
        = ExtensionTs.keptLines content := by
      rw [ext_updated_eq_joinNl]
      refine splitNl_joinNl hk fun l hl => ?_
      rw [heq] at hl
      rcases List.mem_append.mp hl with hl | hl
      · exact (hfp l hl).2.2
      · exact not_nl_of_mem_splitNl (List.mem_of_mem_drop hl)
    show ExtensionTs.usingsOf _ = []
    unfold ExtensionTs.usingsOf ExtensionTs.nsIdxOf
    rw [hsplit, heq]
    apply filterMap_take_nsIdx_eq_nil
    · exact fun x hx => ⟨(hfp x hx).1, (hfp x hx).2.1⟩
    · exact drop_nsIdx_shape (splitNl content)

/-- Claim C2: for every file text, applying `extract` a second time to
the remainder returned by the first application yields an empty import
set — extraction is idempotent, in both the part_002 and the
extension.ts variant. -/
theorem claim2_extract_idempotent (content : List Char) :
    (Part002.extractUsings ((Part002.extractUsings content).updatedContent)).usings = []
    ∧ (ExtensionTs.extractUsings
        ((ExtensionTs.extractUsings content).updatedContent)).usings = [] :=
  ⟨p2_second_extract content, ext_second_extract content⟩

/-! ## Blank-line handling and frame conditions of extraction -/

/-- Claim C6 counterexample: the claim says a blank line that precedes
non-import, non-blank content is preserved in the remainder.  In the
input `"\n// c\nnamespace N"` the first line is blank and precedes the
comment line `"// c"` (non-import, non-blank), yet both variants drop
it: the part_002 variant removes every blank line of the
pre-declaration region, and the extension.ts variant (shown on
`"using A;\n\n// c\nnamespace N"`, whose blank precedes `"// c"`)
keeps a pre-declaration blank only when an earlier line is non-blank
and not import-like. -/
theorem claim6_counterexample :
    (Part002.extractUsings "\n// c\nnamespace N".toList).usings = []
    ∧ (Part002.extractUsings "\n// c\nnamespace N".toList).updatedContent
        = "// c\nnamespace N".toList
    ∧ (ExtensionTs.extractUsings "using A;\n\n// c\nnamespace N".toList).updatedContent
        = "// c\nnamespace N".toList := by
  refine ⟨by decide, by decide, by decide⟩

/-- Claim C6 (amended): in the part_002 variant, `extract` removes from
the pre-declaration region exactly the matching import lines and EVERY
blank line — including blank lines that precede non-import, non-blank
content — and preserves every line from the first declaration line on:
the remainder's lines are precisely the non-blank, non-import
pre-declaration lines followed by the unchanged declaration region. -/
theorem claim6_amended (content : List Char)
    (h : ((splitNl content).take (Part002.nsIdxOf content)).filter Part002.keepLine
        ++ (splitNl content).drop (Part002.nsIdxOf content) ≠ []) :
    splitNl ((Part002.extractUsings content).updatedContent)
      = ((splitNl content).take (Part002.nsIdxOf content)).filter Part002.keepLine
        ++ (splitNl content).drop (Part002.nsIdxOf content) := by
  have hk : Part002.keptLines content ≠ [] := h
  rw [p2_splitNl_updated hk]
  rfl

/-- Witness for the amended claim C6 at a concrete input. -/
theorem claim6_amended_witness :
    splitNl ((Part002.extractUsings "using A;\n\n// c\nnamespace N".toList).updatedContent)
      = ((splitNl "using A;\n\n// c\nnamespace N".toList).take
            (Part002.nsIdxOf "using A;\n\n// c\nnamespace N".toList)).filter Part002.keepLine
        ++ (splitNl "using A;\n\n// c\nnamespace N".toList).drop
            (Part002.nsIdxOf "using A;\n\n// c\nnamespace N".toList) :=
  claim6_amended "using A;\n\n// c\nnamespace N".toList (by decide)

/-- Claim C10: the part_002 `extractUsings` only deletes whole lines:
the remainder is the newline-join of a subsequence of the original
line list, and (whenever the remainder is non-empty, so that it has
lines at all) every line of the remainder is character-for-character
one of the original lines, in the original relative order. -/
theorem claim10_remainder_sublist (content : List Char) :
    (∃ kept, (Part002.extractUsings content).updatedContent = joinNl kept
        ∧ kept.Sublist (splitNl content))
    ∧ ((Part002.extractUsings content).updatedContent ≠ [] →
        (splitNl ((Part002.extractUsings content).updatedContent)).Sublist
          (splitNl content)) := by
  have hsub : (Part002.keptLines content).Sublist (splitNl content) := by
    unfold Part002.keptLines
    have h1 := List.Sublist.append
      (List.filter_sublist ((splitNl content).take (Part002.nsIdxOf content))
        (p := Part002.keepLine))
      (List.Sublist.refl ((splitNl content).drop (Part002.nsIdxOf content)))
    rwa [List.take_append_drop] at h1
  constructor
  · exact ⟨Part002.keptLines content, rfl, hsub⟩
  · intro hne
    have hk : Part002.keptLines content ≠ [] := by
      intro h0
      exact hne (by rw [p2_updated_eq_joinNl, h0]; rfl)
    rw [p2_splitNl_updated hk]
    exact hsub

/-- Witness for claim C10 at a concrete input with a non-empty
remainder. -/
theorem claim10_witness :
    (splitNl ((Part002.extractUsings "using A;\n// c\nnamespace N".toList).updatedContent)).Sublist
      (splitNl "using A;\n// c\nnamespace N".toList) :=
  (claim10_remainder_sublist "using A;\n// c\nnamespace N".toList).2 (by decide)

/-! ## Shape of extracted using statements -/

theorem isUsingLine_shape {t : List Char} (h : isUsingLine t = true) :
    ∃ c r, t = "using".toList ++ c :: r ∧ isWs c = true := by
  unfold isUsingLine at h
  rcases hd : t.drop 5 with _ | ⟨c, rest⟩ <;> rw [hd] at h
  · simp at h
  · simp only [Bool.and_eq_true, beq_iff_eq] at h
    refine ⟨c, rest, ?_, h.2.1⟩
    conv_lhs => rw [← List.take_append_drop 5 t]
    rw [h.1, hd]

theorem isUsingLineExt_shape {t : List Char} (h : isUsingLineExt t = true) :
    ∃ c r, t = "using".toList ++ c :: r ∧ isWs c = true := by
  unfold isUsingLineExt at h
  rcases hd : t.drop 5 with _ | ⟨c, rest⟩ <;> rw [hd] at h
  · simp at h
  · simp only [Bool.and_eq_true, beq_iff_eq] at h
    refine ⟨c, rest, ?_, h.2.1⟩
    conv_lhs => rw [← List.take_append_drop 5 t]
    rw [h.1, hd]

/-- Claim C8: every import statement recorded by `extract` — in either
variant — begins with the plain `using` keyword followed by whitespace,
and never carries a leading `global` marker. -/
theorem claim8_no_global_marker (content u : List Char)
    (h : u ∈ (Part002.extractUsings content).usings
        ∨ u ∈ (ExtensionTs.extractUsings content).usings) :
    (∃ c r, u = "using".toList ++ c :: r ∧ isWs c = true)
    ∧ ∀ r, u ≠ "global".toList ++ r := by
  have hshape : ∃ c r, u = "using".toList ++ c :: r ∧ isWs c = true := by
    rcases h with h | h
    · rcases List.mem_filterMap.mp h with ⟨l, _, hif⟩
      by_cases hm : isUsingLine (trim l)
      · rw [if_pos hm] at hif
        exact (Option.some_inj.mp hif) ▸ isUsingLine_shape hm
      · rw [if_neg hm] at hif; exact absurd hif (by simp)
    · rcases List.mem_filterMap.mp h with ⟨l, _, hif⟩
      by_cases hm : isUsingLineExt (trim l)
      · rw [if_pos hm] at hif
        exact (Option.some_inj.mp hif) ▸ isUsingLineExt_shape hm
      · rw [if_neg hm] at hif; exact absurd hif (by simp)
  refine ⟨hshape, ?_⟩
  rcases hshape with ⟨c, r, rfl, _⟩
  intro r' hcontra
  simp [List.cons_eq_cons] at hcontra

/-- Witness for claim C8 at a concrete input and extracted statement. -/
theorem claim8_witness :
    (∃ c r, "using System;".toList = "using".toList ++ c :: r ∧ isWs c = true)
    ∧ ∀ r, "using System;".toList ≠ "global".toList ++ r :=
  claim8_no_global_marker "using System;\nnamespace N".toList "using System;".toList
    (Or.inl (by decide))
/-! ## The comparator is a total preorder keyed on (tier, namespace) -/

theorem char_toNat_inj {a b : Char} (h : a.toNat = b.toNat) : a = b :=
  Char.eq_of_val_eq (UInt32.toNat.inj h)

theorem char_ne_of_toNat_lt {a b : Char} (h : a.toNat < b.toNat) : a ≠ b :=
  fun he => by subst he; omega

theorem localeCompare_self (a : List Char) : localeCompare a a = 0 := by
  induction a with
  | nil => rfl
  | cons c cs ih => rw [localeCompare, if_pos rfl, ih]

theorem eq_of_localeCompare_eq_zero :
    ∀ {a b : List Char}, localeCompare a b = 0 → a = b
  | [], [], _ => rfl
  | [], _ :: _, h => by simp [localeCompare] at h
  | _ :: _, [], h => by simp [localeCompare] at h
  | a :: as, b :: bs, h => by
    rw [localeCompare] at h
    by_cases hab : a = b
    · rw [if_pos hab] at h
      rw [hab, eq_of_localeCompare_eq_zero h]
    · rw [if_neg hab] at h
      split at h <;> omega

theorem localeCompare_swap :
    ∀ (a b : List Char), localeCompare b a = -localeCompare a b
  | [], [] => rfl
  | [], _ :: _ => rfl
  | _ :: _, [] => rfl
  | a :: as, b :: bs => by
    rw [localeCompare, localeCompare]
    by_cases hab : a = b
    · rw [if_pos hab, if_pos hab.symm, localeCompare_swap as bs]
    · rw [if_neg hab, if_neg (Ne.symm hab)]
      rcases Nat.lt_trichotomy a.toNat b.toNat with h | h | h
      · rw [if_neg (show ¬ b.toNat < a.toNat by omega), if_pos h]; decide
      · exact absurd (char_toNat_inj h) hab
      · rw [if_pos h, if_neg (show ¬ a.toNat < b.toNat by omega)]

theorem localeCompare_le_trans :
    ∀ {a b c : List Char}, localeCompare a b ≤ 0 → localeCompare b c ≤ 0 →
      localeCompare a c ≤ 0
  | [], _, [], _, _ => by rw [localeCompare]
  | [], _, _ :: _, _, _ => by rw [localeCompare]; omega
  | _ :: _, [], _, h₁, _ => by rw [localeCompare] at h₁; omega
  | _ :: _, _ :: _, [], _, h₂ => by rw [localeCompare] at h₂; omega
  | a :: as, b :: bs, c :: cs, h₁, h₂ => by
    rw [localeCompare] at h₁ h₂ ⊢
    by_cases hab : a = b
    · rw [if_pos hab] at h₁
      by_cases hbc : b = c
      · rw [if_pos hbc] at h₂
        rw [if_pos (hab.trans hbc)]
        exact localeCompare_le_trans h₁ h₂
      · rw [if_neg hbc] at h₂
        rw [if_neg (fun hac => hbc (hab.symm.trans hac))]
        rcases Nat.lt_or_ge b.toNat c.toNat with hlt | hge
        · rw [if_pos (hab ▸ hlt)]; omega
        · rw [if_neg (by omega)] at h₂; omega
    · rw [if_neg hab] at h₁
      rcases Nat.lt_or_ge a.toNat b.toNat with h1 | h1
      · rw [if_pos h1] at h₁
        by_cases hbc : b = c
        · have hac : a.toNat < c.toNat := hbc ▸ h1
          rw [if_neg (char_ne_of_toNat_lt hac), if_pos hac]
          omega
        · rw [if_neg hbc] at h₂
          rcases Nat.lt_or_ge b.toNat c.toNat with h2 | h2
          · have hac : a.toNat < c.toNat := Nat.lt_trans h1 h2
            rw [if_neg (char_ne_of_toNat_lt hac), if_pos hac]
            omega
          · rw [if_neg (by omega)] at h₂; omega
      · rw [if_neg (by omega)] at h₁; omega

theorem not_microsoft_of_system {x : List Char}
    (h : "System".toList.isPrefixOf x = true) :
    "Microsoft".toList.isPrefixOf x = false := by
  rw [show "System".toList = 'S' :: "ystem".toList from rfl] at h
  rw [show "Microsoft".toList = 'M' :: "icrosoft".toList from rfl]
  cases x with
  | nil => simp [List.isPrefixOf] at h
  | cons c cs =>
    simp only [List.isPrefixOf, Bool.and_eq_true, beq_iff_eq] at h
    obtain ⟨hc, -⟩ := h
    subst hc
    simp [List.isPrefixOf]

theorem usingCompare_le_iff (a b : List Char) :
    usingCompare a b ≤ 0 ↔
      (nsTier a < nsTier b ∨ (nsTier a = nsTier b
        ∧ localeCompare (getNamespace a) (getNamespace b) ≤ 0)) := by
  rcases Bool.eq_false_or_eq_true ("System".toList.isPrefixOf (getNamespace a)) with hsa | hsa <;>
  rcases Bool.eq_false_or_eq_true ("System".toList.isPrefixOf (getNamespace b)) with hsb | hsb <;>
  rcases Bool.eq_false_or_eq_true ("Microsoft".toList.isPrefixOf (getNamespace a)) with hma | hma <;>
  rcases Bool.eq_false_or_eq_true ("Microsoft".toList.isPrefixOf (getNamespace b)) with hmb | hmb <;>
  first
  | (exfalso; rw [not_microsoft_of_system hsa] at hma; exact Bool.false_ne_true hma)
  | (exfalso; rw [not_microsoft_of_system hsb] at hmb; exact Bool.false_ne_true hmb)
  | (simp only [usingCompare, nsTier, hsa, hsb, hma, hmb]; simp)

theorem usingLe_total (a b : List Char) : usingLe a b = true ∨ usingLe b a = true := by
  simp only [usingLe, decide_eq_true_eq]
  rw [usingCompare_le_iff, usingCompare_le_iff]
  rcases Nat.lt_trichotomy (nsTier a) (nsTier b) with h | h | h
  · exact Or.inl (Or.inl h)
  · have := localeCompare_swap (getNamespace a) (getNamespace b)
    rcases Int.le_total (localeCompare (getNamespace a) (getNamespace b)) 0 with hl | hl
    · exact Or.inl (Or.inr ⟨h, hl⟩)
    · exact Or.inr (Or.inr ⟨h.symm, by omega⟩)
  · exact Or.inr (Or.inl h)

theorem usingLe_trans {a b c : List Char} (h₁ : usingLe a b = true)
    (h₂ : usingLe b c = true) : usingLe a c = true := by
  simp only [usingLe, decide_eq_true_eq] at h₁ h₂ ⊢
  rw [usingCompare_le_iff] at h₁ h₂ ⊢
  rcases h₁ with h₁ | ⟨h₁, hl₁⟩
  · rcases h₂ with h₂ | ⟨h₂, hl₂⟩
    · exact Or.inl (Nat.lt_trans h₁ h₂)
    · exact Or.inl (h₂ ▸ h₁)
  · rcases h₂ with h₂ | ⟨h₂, hl₂⟩
    · exact Or.inl (h₁ ▸ h₂)
    · exact Or.inr ⟨h₁.trans h₂, localeCompare_le_trans hl₁ hl₂⟩

theorem usingLe_antisymm_ns {a b : List Char} (h₁ : usingLe a b = true)
    (h₂ : usingLe b a = true) : getNamespace a = getNamespace b := by
  simp only [usingLe, decide_eq_true_eq] at h₁ h₂
  rw [usingCompare_le_iff] at h₁ h₂
  have hswap := localeCompare_swap (getNamespace a) (getNamespace b)
  rcases h₁ with h₁ | ⟨h₁, hl₁⟩ <;> rcases h₂ with h₂ | ⟨h₂, hl₂⟩ <;>
    first
    | omega
    | exact eq_of_localeCompare_eq_zero (by omega)

/-! ## The stable sort -/

theorem insertStable_perm {α : Type} (le : α → α → Bool) (x : α) (l : List α) :
    List.Perm (insertStable le x l) (x :: l) := by
  induction l with
  | nil => exact List.Perm.refl _
  | cons y ys ih =>
    rw [insertStable]
    split
    · exact List.Perm.refl _
    · exact (ih.cons y).trans (List.Perm.swap x y ys)

theorem insertionSort_perm {α : Type} (le : α → α → Bool) (l : List α) :
    List.Perm (insertionSort le l) l := by
  induction l with
  | nil => exact List.Perm.refl _
  | cons x xs ih =>
    rw [insertionSort]
    exact (insertStable_perm le x _).trans (ih.cons x)

theorem insertStable_pairwise {α : Type} {le : α → α → Bool}
    (total : ∀ a b, le a b = true ∨ le b a = true)
    (trans : ∀ {a b c}, le a b = true → le b c = true → le a c = true)
    {x : α} {l : List α} (h : l.Pairwise (le · · = true)) :
    (insertStable le x l).Pairwise (le · · = true) := by
  induction l with
  | nil => simp [insertStable]
  | cons y ys ih =>
    rcases List.pairwise_cons.mp h with ⟨hy, hys⟩
    by_cases hxy : le x y = true
    · rw [insertStable, if_pos hxy]
      refine List.pairwise_cons.mpr ⟨?_, h⟩
      intro z hz
      rcases List.mem_cons.mp hz with rfl | hz
      · exact hxy
      · exact trans hxy (hy z hz)
    · rw [insertStable, if_neg hxy]
      refine List.pairwise_cons.mpr ⟨?_, ih hys⟩
      intro z hz
      have hyx : le y x = true := (total x y).resolve_left hxy
      rcases List.mem_cons.mp ((insertStable_perm le x ys).mem_iff.mp hz) with rfl | hz
      · exact hyx
      · exact hy z hz

theorem insertionSort_pairwise {α : Type} {le : α → α → Bool}
    (total : ∀ a b, le a b = true ∨ le b a = true)
    (trans : ∀ {a b c}, le a b = true → le b c = true → le a c = true)
    (l : List α) : (insertionSort le l).Pairwise (le · · = true) := by
  induction l with
  | nil => simp [insertionSort]
  | cons x xs ih =>
    rw [insertionSort]
    exact insertStable_pairwise total trans ih

theorem eq_of_perm_of_pairwise {α : Type} {le : α → α → Bool} :
    ∀ {l₁ l₂ : List α}, List.Perm l₁ l₂ →
      l₁.Pairwise (le · · = true) → l₂.Pairwise (le · · = true) →
      (∀ a ∈ l₁, ∀ b ∈ l₁, le a b = true → le b a = true → a = b) → l₁ = l₂
  | [], _, hp, _, _, _ => hp.nil_eq
  | x :: t₁, l₂, hp, h₁, h₂, anti => by
    cases l₂ with
    | nil => exact absurd hp.symm.nil_eq (by simp)
    | cons y t₂ =>
      have hxy : x = y := by
        by_cases hxe : x = y
        · exact hxe
        · have hx2 : x ∈ y :: t₂ := hp.mem_iff.mp (by simp)
          have hy1 : y ∈ x :: t₁ := hp.mem_iff.mpr (by simp)
          have hxt2 : x ∈ t₂ := by
            rcases List.mem_cons.mp hx2 with h | h
            · exact absurd h hxe
            · exact h
          have hyt1 : y ∈ t₁ := by
            rcases List.mem_cons.mp hy1 with h | h
            · exact absurd h.symm hxe
            · exact h
          exact anti x (by simp) y (by simp [hyt1])
            ((List.pairwise_cons.mp h₁).1 y hyt1)
            ((List.pairwise_cons.mp h₂).1 x hxt2)
      subst hxy
      have hrec := eq_of_perm_of_pairwise hp.cons_inv
        (List.pairwise_cons.mp h₁).2 (List.pairwise_cons.mp h₂).2
        (fun a ha b hb hab hba =>
          anti a (List.mem_cons_of_mem x ha) b (List.mem_cons_of_mem x hb) hab hba)
      rw [hrec]

/-! ## Claim C1: determinism of the merge output -/

/-- Claim C1 counterexample: the claim asserts byte-identical output for
any permuted input order of the same import set.  For the set
`using Foo;` / `using static Foo;` both entries get the namespace root
`Foo`, the comparator ties (`localeCompare` of identical strings is `0`
in every locale), and the ECMAScript-mandated stable sort keeps the
insertion order of the `Set`, so the two input orders give different
merged files. -/
theorem claim1_counterexample :
    List.Perm ["using Foo;".toList, "using static Foo;".toList]
      ["using static Foo;".toList, "using Foo;".toList]
    ∧ writeGlobalUsingsContent none ["using Foo;".toList, "using static Foo;".toList]
      ≠ writeGlobalUsingsContent none ["using static Foo;".toList, "using Foo;".toList] :=
  ⟨by decide, by decide⟩

/-- Claim C1 (amended): the merge output is a deterministic function of
the entry set — identical for any permuted input order — provided
distinct entries of the set have distinct namespace roots (the
comparator orders entries by priority tier and then by namespace root
only, so entries sharing a namespace root keep their insertion order,
as exhibited by the counterexample). -/
theorem claim1_amended (s₁ s₂ : List (List Char))
    (hperm : List.Perm s₁ s₂)
    (hinj : ∀ a ∈ s₁, ∀ b ∈ s₁, getNamespace a = getNamespace b → a = b) :
    formatGlobalUsings s₁ = formatGlobalUsings s₂ := by
  have hsorted : insertionSort usingLe s₁ = insertionSort usingLe s₂ := by
    apply eq_of_perm_of_pairwise
    · exact (insertionSort_perm usingLe s₁).trans
        (hperm.trans (insertionSort_perm usingLe s₂).symm)
    · exact insertionSort_pairwise usingLe_total (fun h₁ h₂ => usingLe_trans h₁ h₂) s₁
    · exact insertionSort_pairwise usingLe_total (fun h₁ h₂ => usingLe_trans h₁ h₂) s₂
    · intro a ha b hb hab hba
      exact hinj a ((insertionSort_perm usingLe s₁).mem_iff.mp ha)
        b ((insertionSort_perm usingLe s₁).mem_iff.mp hb)
        (usingLe_antisymm_ns hab hba)
  unfold formatGlobalUsings
  rw [hsorted]

/-- Witness for the amended claim C1 at a concrete permuted pair. -/
theorem claim1_amended_witness :
    formatGlobalUsings ["global using B.N;".toList, "global using A.N;".toList]
      = formatGlobalUsings ["global using A.N;".toList, "global using B.N;".toList] :=
  claim1_amended ["global using B.N;".toList, "global using A.N;".toList]
    ["global using A.N;".toList, "global using B.N;".toList] (by decide) (by decide)

/-! ## The merged entry set -/

theorem mem_jsSetAdd {s : List (List Char)} {x a : List Char} :
    a ∈ jsSetAdd s x ↔ a ∈ s ∨ a = x := by
  unfold jsSetAdd
  split
  · constructor
    · exact Or.inl
    · rintro (h | rfl)
      · exact h
      · assumption
  · simp

theorem jsSetAdd_nodup {s : List (List Char)} {x : List Char} (h : s.Nodup) :
    (jsSetAdd s x).Nodup := by
  unfold jsSetAdd
  split
  · exact h
  · refine List.Nodup.append h (List.nodup_singleton x) ?_
    intro a ha hax
    rw [List.mem_singleton] at hax
    subst hax
    exact ‹a ∉ s› ha

theorem mem_jsSetAddAll {xs : List (List Char)} :
    ∀ {s : List (List Char)} {a : List Char},
      a ∈ jsSetAddAll s xs ↔ a ∈ s ∨ a ∈ xs := by
  induction xs with
  | nil => intro s a; simp [jsSetAddAll]
  | cons x xs ih =>
    intro s a
    show a ∈ jsSetAddAll (jsSetAdd s x) xs ↔ _
    rw [ih, mem_jsSetAdd]
    simp only [List.mem_cons]
    tauto

theorem jsSetAddAll_nodup {xs : List (List Char)} :
    ∀ {s : List (List Char)}, s.Nodup → (jsSetAddAll s xs).Nodup := by
  induction xs with
  | nil => intro s h; exact h
  | cons x xs ih => intro s h; exact ih (jsSetAdd_nodup h)

theorem mem_trim_subset {l : List Char} {c : Char} (h : c ∈ trim l) : c ∈ l := by
  unfold trim at h
  have h1 := (List.dropWhile_sublist (l := (l.dropWhile isWs).reverse) isWs).subset
    (List.mem_reverse.mp h)
  exact (List.dropWhile_sublist isWs).subset (List.mem_reverse.mp h1)

theorem mem_parseGlobalLines {content x : List Char} (h : x ∈ parseGlobalLines content) :
    x ≠ [] ∧ '\n' ∉ x := by
  unfold parseGlobalLines at h
  have hmem := (List.mem_filter.mp h).1
  have hpre := (List.mem_filter.mp h).2
  rcases List.mem_map.mp hmem with ⟨l, hl, rfl⟩
  constructor
  · intro he
    rw [he] at hpre
    exact absurd hpre (by decide)
  · intro hnl
    exact not_nl_of_mem_splitNl hl (mem_trim_subset hnl)

theorem mem_mergedGlobalSet {existing : Option (List Char)} {new : List (List Char)}
    {s : List Char} :
    s ∈ mergedGlobalSet existing new ↔
      (∃ c, existing = some c ∧ s ∈ parseGlobalLines c)
        ∨ ∃ u ∈ new, s = "global ".toList ++ u := by
  unfold mergedGlobalSet
  cases existing with
  | none =>
    rw [mem_jsSetAddAll]
    simp only [List.not_mem_nil, false_or, List.mem_map]
    constructor
    · rintro ⟨u, hu, rfl⟩
      exact Or.inr ⟨u, hu, rfl⟩
    · rintro (⟨c, hc, _⟩ | ⟨u, hu, rfl⟩)
      · exact absurd hc (by simp)
      · exact ⟨u, hu, rfl⟩
  | some c =>
    rw [mem_jsSetAddAll, mem_jsSetAddAll]
    simp only [List.not_mem_nil, false_or, List.mem_map]
    constructor
    · rintro (hp | ⟨u, hu, rfl⟩)
      · exact Or.inl ⟨c, rfl, hp⟩
      · exact Or.inr ⟨u, hu, rfl⟩
    · rintro (⟨c2, hc2, hp⟩ | ⟨u, hu, rfl⟩)
      · exact Or.inl (Option.some_inj.mp hc2 ▸ hp)
      · exact Or.inr ⟨u, hu, rfl⟩

theorem mergedGlobalSet_nodup (existing : Option (List Char)) (new : List (List Char)) :
    (mergedGlobalSet existing new).Nodup := by
  cases existing with
  | none => exact jsSetAddAll_nodup List.nodup_nil
  | some c => exact jsSetAddAll_nodup (jsSetAddAll_nodup List.nodup_nil)

theorem mem_mergedGlobalSet_wf {existing : Option (List Char)} {new : List (List Char)}
    (hnew : ∀ u ∈ new, '\n' ∉ u) {s : List Char}
    (h : s ∈ mergedGlobalSet existing new) : s ≠ [] ∧ '\n' ∉ s := by
  rcases mem_mergedGlobalSet.mp h with ⟨c, _, hp⟩ | ⟨u, hu, rfl⟩
  · exact mem_parseGlobalLines hp
  · refine ⟨by simp, ?_⟩
    intro hnl
    rcases List.mem_append.mp hnl with hg | hg
    · exact absurd hg (by decide)
    · exact hnew u hu hg

/-! ## Lines of the formatted output -/

theorem splitNl_cons_nl (x : List Char) : splitNl ('\n' :: x) = [] :: splitNl x := by
  rw [splitNl, if_pos rfl]

theorem splitNl_joinNl_append :
    ∀ {ls : List (List Char)}, ls ≠ [] → (∀ l ∈ ls, '\n' ∉ l) →
      ∀ (r : List Char), splitNl (joinNl ls ++ '\n' :: r) = ls ++ splitNl r
  | [], h, _, _ => absurd rfl h
  | [x], _, hnl, r => by
    rw [show joinNl [x] = x from rfl, splitNl_append_cons_nl (hnl x (by simp))]
    rfl
  | x :: y :: ls, _, hnl, r => by
    have hx : '\n' ∉ x := hnl x (by simp)
    rw [joinNl, joinSep_cons₂]
    simp only [List.append_assoc, List.cons_append, List.nil_append]
    rw [splitNl_append_cons_nl hx]
    rw [show joinSep ['\n'] (y :: ls) = joinNl (y :: ls) from rfl]
    rw [splitNl_joinNl_append (by simp) (fun l hl => hnl l (List.mem_cons_of_mem x hl)) r]
    rfl

theorem splitNl_groups :
    ∀ {gs : List (List (List Char))}, gs ≠ [] → (∀ g ∈ gs, g ≠ []) →
      (∀ g ∈ gs, ∀ l ∈ g, '\n' ∉ l) →
      splitNl (joinSep ['\n', '\n'] (gs.map joinNl) ++ ['\n'])
        = joinSep [([] : List Char)] gs ++ [[]]
  | [], h, _, _ => absurd rfl h
  | [g], _, hne, hnl => by
    rw [show (List.map joinNl [g]) = [joinNl g] from rfl,
      show joinSep ['\n', '\n'] [joinNl g] = joinNl g from rfl,
      show joinSep [([] : List Char)] [g] = g from rfl]
    rw [splitNl_append_newline, splitNl_joinNl (hne g (by simp)) (hnl g (by simp))]
  | g₁ :: g₂ :: gs, _, hne, hnl => by
    rw [List.map_cons, List.map_cons, joinSep_cons₂]
    simp only [List.append_assoc, List.cons_append, List.nil_append]
    rw [splitNl_joinNl_append (hne g₁ (by simp)) (fun l hl => hnl g₁ (by simp) l hl)]
    rw [splitNl_cons_nl]
    rw [← List.map_cons]
    rw [splitNl_groups (by simp) (fun g hg => hne g (List.mem_cons_of_mem g₁ hg))
      (fun g hg => hnl g (List.mem_cons_of_mem g₁ hg))]
    rw [joinSep_cons₂]
    simp [List.append_assoc]

theorem filter_joinSep_blank :
    ∀ (gs : List (List (List Char))), (∀ g ∈ gs, ∀ l ∈ g, l ≠ []) →
      (joinSep [([] : List Char)] gs).filter (fun l => !l.isEmpty) = gs.flatten
  | [], _ => rfl
  | [g], h => by
    rw [show joinSep [([] : List Char)] [g] = g from rfl]
    rw [show List.flatten [g] = g from by simp]
    exact List.filter_eq_self.mpr fun a ha => by simp [h g (by simp) a ha]
  | g₁ :: g₂ :: gs, h => by
    rw [joinSep_cons₂, List.filter_append, List.filter_append]
    rw [show List.filter (fun l => !l.isEmpty) [([] : List Char)] = [] from rfl]
    rw [filter_joinSep_blank (g₂ :: gs) (fun g hg => h g (List.mem_cons_of_mem g₁ hg))]
    rw [List.filter_eq_self.mpr fun a ha => by simp [h g₁ (by simp) a ha]]
    simp

theorem three_filters_perm (P Q : List Char → Bool) (l : List (List Char)) :
    List.Perm (l.filter P ++ (l.filter (fun u => !P u && Q u)
      ++ l.filter (fun u => !P u && !Q u))) l := by
  have h1 := List.filter_append_perm P l
  have h2 := List.filter_append_perm Q (l.filter fun u => !P u)
  rw [List.filter_filter, List.filter_filter] at h2
  have e1 : (l.filter fun a => Q a && !P a) = l.filter fun u => !P u && Q u :=
    List.filter_congr fun a _ => by rw [Bool.and_comm]
  have e2 : (l.filter fun a => !Q a && !P a) = l.filter fun u => !P u && !Q u :=
    List.filter_congr fun a _ => by rw [Bool.and_comm]
  rw [e1, e2] at h2
  exact (List.Perm.append_left (l.filter P) h2).trans h1

theorem flatten_filter_nonempty {α : Type} : ∀ (ls : List (List α)),
    (ls.filter (fun g => !g.isEmpty)).flatten = ls.flatten
  | [] => rfl
  | g :: ls => by
    by_cases hg : g.isEmpty
    · rw [List.filter_cons, if_neg (by simp [hg])]
      rw [flatten_filter_nonempty ls, List.flatten_cons, List.isEmpty_iff.mp hg,
        List.nil_append]
    · rw [List.filter_cons, if_pos (by simp [hg])]
      rw [List.flatten_cons, List.flatten_cons, flatten_filter_nonempty ls]

theorem formatGlobalUsings_eq (s : List (List Char)) :
    formatGlobalUsings s = joinSep ['\n', '\n']
      (([(insertionSort usingLe s).filter
            (fun u => "System".toList.isPrefixOf (getNamespace u)),
          (insertionSort usingLe s).filter
            (fun u => !"System".toList.isPrefixOf (getNamespace u)
              && "Microsoft".toList.isPrefixOf (getNamespace u)),
          (insertionSort usingLe s).filter
            (fun u => !"System".toList.isPrefixOf (getNamespace u)
              && !"Microsoft".toList.isPrefixOf (getNamespace u))].filter
          (fun g => !g.isEmpty)).map joinNl) ++ ['\n'] := rfl

theorem grouped_lines_eq (gs : List (List (List Char)))
    (hwf : ∀ g ∈ gs, ∀ l ∈ g, l ≠ [] ∧ '\n' ∉ l) :
    (splitNl (joinSep ['\n', '\n'] ((gs.filter (fun g => !g.isEmpty)).map joinNl)
        ++ ['\n'])).filter (fun l => !l.isEmpty) = gs.flatten := by
  by_cases hf : gs.filter (fun g => !g.isEmpty) = []
  · rw [hf]
    rw [show (List.map joinNl ([] : List (List (List Char)))) = [] from rfl]
    rw [show joinSep ['\n', '\n'] ([] : List (List Char)) = [] from rfl, List.nil_append]
    rw [show splitNl ['\n'] = [[], []] from rfl]
    rw [← flatten_filter_nonempty gs, hf]
    rfl
  · rw [splitNl_groups hf
      (fun g hg => by simpa using (List.mem_filter.mp hg).2)
      (fun g hg l hl => (hwf g (List.mem_filter.mp hg).1 l hl).2)]
    rw [List.filter_append]
    rw [show List.filter (fun l => !l.isEmpty) [([] : List Char)] = [] from rfl,
      List.append_nil]
    rw [filter_joinSep_blank _ (fun g hg l hl => (hwf g (List.mem_filter.mp hg).1 l hl).1)]
    rw [flatten_filter_nonempty]

theorem format_lines_perm (s : List (List Char))
    (hwf : ∀ x ∈ s, x ≠ [] ∧ '\n' ∉ x) :
    List.Perm ((splitNl (formatGlobalUsings s)).filter (fun l => !l.isEmpty)) s := by
  have hperm := insertionSort_perm usingLe s
  have hmemsort : ∀ x ∈ insertionSort usingLe s, x ≠ [] ∧ '\n' ∉ x :=
    fun x hx => hwf x (hperm.mem_iff.mp hx)
  rw [formatGlobalUsings_eq]
  rw [grouped_lines_eq _ ?hg]
  case hg =>
    intro g hg l hl
    have hls : l ∈ insertionSort usingLe s := by
      rcases List.mem_cons.mp hg with rfl | hg
      · exact (List.mem_filter.mp hl).1
      rcases List.mem_cons.mp hg with rfl | hg
      · exact (List.mem_filter.mp hl).1
      rcases List.mem_cons.mp hg with rfl | hg
      · exact (List.mem_filter.mp hl).1
      · simp at hg
    exact hmemsort l hls
  simp only [List.flatten_cons, List.flatten_nil, List.append_nil]
  exact (three_filters_perm
    (fun u => "System".toList.isPrefixOf (getNamespace u))
    (fun u => "Microsoft".toList.isPrefixOf (getNamespace u))
    (insertionSort usingLe s)).trans hperm

theorem ext_lines_perm (s : List (List Char))
    (hwf : ∀ x ∈ s, x ≠ [] ∧ '\n' ∉ x) :
    List.Perm ((splitNl (joinSep ['\n'] (insertionSort codeUnitLe s)
      ++ ['\n'])).filter (fun l => !l.isEmpty)) s := by
  have hperm := insertionSort_perm codeUnitLe s
  by_cases hs : insertionSort codeUnitLe s = []
  · rw [hs] at hperm
    rw [← hperm.nil_eq]
    decide
  · rw [show joinSep ['\n'] (insertionSort codeUnitLe s)
      = joinNl (insertionSort codeUnitLe s) from rfl]
    rw [splitNl_append_newline,
      splitNl_joinNl hs (fun l hl => (hwf l (hperm.mem_iff.mp hl)).2)]
    rw [List.filter_append,
      show List.filter (fun l => !l.isEmpty) [([] : List Char)] = [] from rfl,
      List.append_nil]
    rw [List.filter_eq_self.mpr fun a ha => by simp [(hwf a (hperm.mem_iff.mp ha)).1]]
    exact hperm

/-- Claim C4: for every existing consolidated text (or absent file) and
every list of new single-line imports, the merge result contains
exactly one entry per distinct normalized import text in the union of
the existing globally-marked entries and the new (global-marked)
imports: the non-blank lines of the output are a permutation of the
merged entry set, that set has no duplicates, and it holds exactly the
union.  Proven for both the part_002 grouped merge and the
extension.ts flat merge. -/
theorem claim4_merge_exact_union (existing : Option (List Char)) (new : List (List Char))
    (hnew : ∀ u ∈ new, '\n' ∉ u) :
    List.Perm ((splitNl (writeGlobalUsingsContent existing new)).filter
        (fun l => !l.isEmpty)) (mergedGlobalSet existing new)
    ∧ List.Perm ((splitNl (writeGlobalUsingsContentExt existing new)).filter
        (fun l => !l.isEmpty)) (mergedGlobalSet existing new)
    ∧ (mergedGlobalSet existing new).Nodup
    ∧ (∀ s, s ∈ mergedGlobalSet existing new ↔
        (∃ c, existing = some c ∧ s ∈ parseGlobalLines c)
          ∨ ∃ u ∈ new, s = "global ".toList ++ u) := by
  refine ⟨?_, ?_, mergedGlobalSet_nodup existing new, fun s => mem_mergedGlobalSet⟩
  · exact format_lines_perm (mergedGlobalSet existing new)
      (fun x hx => mem_mergedGlobalSet_wf hnew hx)
  · exact ext_lines_perm (mergedGlobalSet existing new)
      (fun x hx => mem_mergedGlobalSet_wf hnew hx)

/-- Witness for claim C4 at a concrete merge: an existing consolidated
file with one entry, plus two new imports one of which duplicates the
existing entry. -/
theorem claim4_witness :
    List.Perm ((splitNl (writeGlobalUsingsContent
        (some "global using System;\n".toList)
        ["using System;".toList, "using MyApp.Services;".toList])).filter
        (fun l => !l.isEmpty))
      (mergedGlobalSet (some "global using System;\n".toList)
        ["using System;".toList, "using MyApp.Services;".toList]) :=
  (claim4_merge_exact_union (some "global using System;\n".toList)
    ["using System;".toList, "using MyApp.Services;".toList] (by decide)).1

/-- Claim C5 (Scenario B): for an empty existing consolidated file and
the new imports `using System;` and `using MyApp.Services;`, the
part_002 merge produces the System group, exactly one blank separator
line, then the fallback group holding `MyApp.Services` (it matches
neither priority prefix), with a single trailing newline. -/
theorem claim5_scenario_b :
    writeGlobalUsingsContent (some []) ["using System;".toList, "using MyApp.Services;".toList]
      = "global using System;\n\nglobal using MyApp.Services;\n".toList := by
  decide

/-! ## Claim C9: the walker never yields a GlobalUsings.cs-suffixed path -/

mutual

theorem findCsInEntry_spec : ∀ (dir : List Char) (e : FsEntry) (p : List Char),
    p ∈ findCsInEntry dir e →
    ".cs".toList.isSuffixOf p = true ∧ "GlobalUsings.cs".toList.isSuffixOf p = false
  | dir, .file name, p, hp => by
    rw [findCsInEntry] at hp
    split at hp
    · rename_i hcond
      rw [List.mem_singleton] at hp
      subst hp
      rw [Bool.and_eq_true] at hcond
      exact ⟨hcond.1, by simpa using hcond.2⟩
    · simp at hp
  | dir, .dir name entries, p, hp => by
    rw [findCsInEntry] at hp
    by_cases hskip : (name == "bin".toList || name == "obj".toList
        || name == ".vs".toList || isDotName name) = true
    · rw [if_pos hskip] at hp
      simp at hp
    · rw [if_neg hskip] at hp
      exact findCsFilesRecursively_spec (dir ++ '/' :: name) entries p hp

theorem findCsFilesRecursively_spec :
    ∀ (dir : List Char) (es : List FsEntry) (p : List Char),
    p ∈ findCsFilesRecursively dir es →
    ".cs".toList.isSuffixOf p = true ∧ "GlobalUsings.cs".toList.isSuffixOf p = false
  | dir, [], p, hp => by simp [findCsFilesRecursively] at hp
  | dir, e :: rest, p, hp => by
    rw [findCsFilesRecursively] at hp
    rcases List.mem_append.mp hp with h | h
    · exact findCsInEntry_spec dir e p h
    · exact findCsFilesRecursively_spec dir rest p h

end

/-- Claim C9: in the extension.ts variant, the recursive source-file
walk never yields a file whose path ends with `GlobalUsings.cs` — the
check is a path-suffix test, so even a file named `MyGlobalUsings.cs`
is excluded — and every yielded path ends with `.cs`. -/
theorem claim9_walker_excludes_globalusings (dir : List Char) (tree : List FsEntry)
    (p : List Char) (h : p ∈ findCsFilesRecursively dir tree) :
    ".cs".toList.isSuffixOf p = true
      ∧ "GlobalUsings.cs".toList.isSuffixOf p = false :=
  findCsFilesRecursively_spec dir tree p h

/-- Witness for claim C9: a directory with a normal source file (which
is yielded) next to a `MyGlobalUsings.cs` (which is not). -/
theorem claim9_witness :
    ".cs".toList.isSuffixOf "proj/Program.cs".toList = true
      ∧ "GlobalUsings.cs".toList.isSuffixOf "proj/Program.cs".toList = false :=
  claim9_walker_excludes_globalusings "proj".toList
    [FsEntry.file "Program.cs".toList, FsEntry.file "MyGlobalUsings.cs".toList]
    "proj/Program.cs".toList (by decide)

/-! ## Claim C7: solution-level failure isolation -/

/-- Claim C7 counterexample: the claim says a per-project failure does
not halt processing of the remaining projects.  In the extension.ts
variant `handleSolution` awaits `handleProject` in a sequential loop
and `handleProject` rethrows after rolling back, so when the first
project fails the second is never attempted. -/
theorem claim7_counterexample :
    (handleSolutionLoop failOnA ["A.csproj".toList, "B.csproj".toList]).1
      = ["A.csproj".toList]
    ∧ "B.csproj".toList ∉
        (handleSolutionLoop failOnA ["A.csproj".toList, "B.csproj".toList]).1 :=
  ⟨by decide, by decide⟩

/-- Claim C7 (amended): in the extension.ts variant a project failure
halts the solution loop — the attempted projects are always a prefix of
the member list, and only a run with no failure attempts them all —
while in the part_002 variant (`Promise.all` over the mapped handlers)
every member project is attempted regardless of failures. -/
theorem claim7_amended (run : List Char → Except Unit Unit) (ps : List (List Char)) :
    ((handleSolutionLoop run ps).2 = true → (handleSolutionLoop run ps).1 = ps)
    ∧ (handleSolutionLoop run ps).1 <+: ps
    ∧ (handleSolutionPromiseAll run ps).1 = ps := by
  induction ps with
  | nil => exact ⟨fun _ => rfl, List.nil_prefix, rfl⟩
  | cons p ps ih =>
    cases hrun : run p with
    | ok v =>
      refine ⟨?_, ?_, rfl⟩
      · intro h2
        simp only [handleSolutionLoop, hrun] at h2 ⊢
        rw [ih.1 h2]
      · simp only [handleSolutionLoop, hrun]
        exact List.cons_prefix_cons.mpr ⟨rfl, ih.2.1⟩
    | error e =>
      refine ⟨?_, ?_, rfl⟩
      · intro h2
        simp only [handleSolutionLoop, hrun] at h2
        exact absurd h2 (by simp)
      · simp only [handleSolutionLoop, hrun]
        exact List.cons_prefix_cons.mpr ⟨rfl, List.nil_prefix⟩

/-- Witness for the amended claim C7: with no failing project the loop
attempts every member. -/
theorem claim7_amended_witness :
    (handleSolutionLoop allOk ["A.csproj".toList, "B.csproj".toList]).1
      = ["A.csproj".toList, "B.csproj".toList] :=
  (claim7_amended allOk ["A.csproj".toList, "B.csproj".toList]).1 (by decide)

/-! ## Claim C3: rollback behaviour of the project orchestrator -/

theorem fsRead_fsWrite_self : ∀ (fs : FS) (p c : List Char),
    fsRead (fsWrite fs p c) p = some c
  | [], p, c => by
    rw [fsWrite, fsRead, List.find?_cons_of_pos _ (by simp)]
  | e :: fs, p, c => by
    by_cases he : (e.1 == p) = true
    · rw [fsWrite, if_pos he, fsRead, List.find?_cons_of_pos _ (by simp)]
    · rw [fsWrite, if_neg he, fsRead, List.find?_cons_of_neg _ (by simp [he])]
      have hrec := fsRead_fsWrite_self fs p c
      rw [fsRead] at hrec
      exact hrec

theorem fsRead_fsWrite_ne : ∀ (fs : FS) (p c q : List Char), q ≠ p →
    fsRead (fsWrite fs p c) q = fsRead fs q
  | [], p, c, q, hq => by
    rw [fsWrite, fsRead, fsRead,
      List.find?_cons_of_neg _ (by simp [hq.symm]), List.find?]
  | e :: fs, p, c, q, hq => by
    by_cases he : (e.1 == p) = true
    · have hpq : (p == q) = false := by simp [hq.symm]
      have heq : (e.1 == q) = false := by
        rw [beq_iff_eq] at he
        simp [he, hq.symm]
      rw [fsWrite, if_pos he, fsRead, fsRead,
        List.find?_cons_of_neg _ (by simp [hpq]),
        List.find?_cons_of_neg _ (by simp [heq])]
    · by_cases heq : (e.1 == q) = true
      · rw [fsWrite, if_neg he, fsRead, fsRead,
          @List.find?_cons_of_pos _ (fun e2 => e2.1 == q) e (fsWrite fs p c) heq,
          @List.find?_cons_of_pos _ (fun e2 => e2.1 == q) e fs heq]
      · rw [fsWrite, if_neg he, fsRead, fsRead,
          List.find?_cons_of_neg _ (by simp [heq]),
          List.find?_cons_of_neg _ (by simp [heq])]
        have hrec := fsRead_fsWrite_ne fs p c q hq
        rw [fsRead, fsRead] at hrec
        exact hrec

theorem fsRead_rollback : ∀ (bks : List (List Char × List Char)) (fs : FS) (p : List Char),
    fsRead (rollbackChanges fs bks) p
      = match lastAssoc bks p with
        | some c => some c
        | none => fsRead fs p
  | [], fs, p => rfl
  | b :: bks, fs, p => by
    rw [show rollbackChanges fs (b :: bks)
      = rollbackChanges (fsWrite fs b.1 b.2) bks from rfl]
    rw [fsRead_rollback bks]
    rw [lastAssoc]
    cases hl : lastAssoc bks p with
    | some c => rfl
    | none =>
      by_cases hb : (b.1 == p) = true
      · rw [if_pos hb]
        rw [beq_iff_eq] at hb
        rw [← hb, fsRead_fsWrite_self]
      · rw [if_neg hb]
        rw [beq_iff_eq] at hb
        exact fsRead_fsWrite_ne fs b.1 b.2 p (fun h => hb h.symm)

theorem lastAssoc_append : ∀ (a b : List (List Char × List Char)) (p : List Char),
    lastAssoc (a ++ b) p = match lastAssoc b p with
      | some c => some c
      | none => lastAssoc a p
  | [], b, p => by
    cases hl : lastAssoc b p with
    | some c => rw [List.nil_append, hl]
    | none => rw [List.nil_append, hl, lastAssoc]
  | e :: a, b, p => by
    simp only [List.cons_append, lastAssoc]
    rw [show List.append a b = a ++ b from rfl, lastAssoc_append a b p]
    cases hl : lastAssoc b p <;> cases hl2 : lastAssoc a p <;> rfl

theorem lastAssoc_eq_none : ∀ (bks : List (List Char × List Char)) (p : List Char),
    (∀ b ∈ bks, b.1 ≠ p) → lastAssoc bks p = none
  | [], _, _ => rfl
  | b :: bks, p, h => by
    rw [lastAssoc, lastAssoc_eq_none bks p (fun b2 hb2 => h b2 (List.mem_cons_of_mem b hb2))]
    rw [if_neg (by simp [h b (List.mem_cons_self b bks)])]

theorem backup_keys : ∀ (mods : List FileMod) (fs : FS)
    (b : List Char × List Char),
    b ∈ (mods.filterMap fun m2 => (fsRead fs m2.filePath).map
      fun c2 => (m2.filePath, c2)) → b.1 ∈ mods.map (fun m2 => m2.filePath) := by
  intro mods fs b hb
  rcases List.mem_filterMap.mp hb with ⟨m2, hm2, hmap⟩
  cases hr : fsRead fs m2.filePath with
  | none => rw [hr] at hmap; exact absurd hmap (by simp)
  | some c2 =>
    rw [hr] at hmap
    simp only [Option.map_some'] at hmap
    rw [Option.some_inj] at hmap
    rw [← hmap]
    exact List.mem_map.mpr ⟨m2, hm2, rfl⟩

theorem lastAssoc_modBackups : ∀ (mods : List FileMod) (fs : FS) (m : FileMod)
    (c : List Char), (mods.map (fun m2 => m2.filePath)).Nodup →
    m ∈ mods → fsRead fs m.filePath = some c →
    lastAssoc (mods.filterMap fun m2 => (fsRead fs m2.filePath).map
      fun c2 => (m2.filePath, c2)) m.filePath = some c
  | [], _, _, _, _, hm, _ => absurd hm (by simp)
  | m0 :: mods, fs, m, c, hnodup, hm, hc => by
    rw [List.map_cons] at hnodup
    have hhead := (List.nodup_cons.mp hnodup).1
    have htail := (List.nodup_cons.mp hnodup).2
    rw [List.filterMap_cons]
    rcases List.mem_cons.mp hm with rfl | hm2
    · rw [hc]
      simp only [Option.map_some']
      rw [lastAssoc]
      rw [lastAssoc_eq_none _ _ ?keys]
      · rw [if_pos (by simp)]
      case keys =>
        intro b hb
        have hb1 := backup_keys mods fs b hb
        intro hbp
        rw [hbp] at hb1
        exact hhead hb1
    · cases hr0 : fsRead fs m0.filePath with
      | none =>
        simp only [Option.map_none']
        exact lastAssoc_modBackups mods fs m c htail hm2 hc
      | some c0 =>
        simp only [Option.map_some']
        rw [lastAssoc]
        rw [lastAssoc_modBackups mods fs m c htail hm2 hc]

/-- Claim C3 counterexample: the claim says the consolidated file is
restored "to absence" if it did not exist before the run.  On a project
with one source file, no consolidated file, and a failing validation,
`rollbackChanges` restores only backed-up files: the newly created
`GlobalUsings.cs` is left in place (it is never deleted), and the
`.csproj` patched by `updateCsprojFile` (never backed up) is not
restored either. -/
theorem claim3_counterexample :
    fsRead sampleFs "P/GlobalUsings.cs".toList = none
    ∧ fsRead (applyPhase sampleFs sampleMods "P".toList "P/p.csproj".toList
        ["using X;".toList] none false) "P/GlobalUsings.cs".toList
      = some "global using X;\n".toList
    ∧ fsRead (applyPhase sampleFs sampleMods "P".toList "P/p.csproj".toList
        ["using X;".toList] none false) "P/p.csproj".toList
      ≠ fsRead sampleFs "P/p.csproj".toList :=
  ⟨by decide, by decide, by decide⟩

/-- Claim C3 (amended): when the Applying phase fails partway or the
Validating phase fails, every file that was backed up is restored
exactly to its pre-run content: every rewritten source file, and the
consolidated file when it existed before the run.  A consolidated file
that did not exist pre-run is not backed up, so it is left created (not
removed), and the patched project manifest is not rolled back (as the
counterexample shows). -/
theorem claim3_amended (fs : FS) (mods : List FileMod)
    (projectDir csprojPath : List Char) (allUsings : List (List Char))
    (failAt : Option Nat) (buildOk : Bool)
    (hfail : failAt.isSome = true ∨ buildOk = false)
    (hread : ∀ m ∈ mods, (fsRead fs m.filePath).isSome = true)
    (hnodup : (mods.map fun m => m.filePath).Nodup)
    (hg : ∀ m ∈ mods, m.filePath ≠ projectDir ++ "/GlobalUsings.cs".toList) :
    (∀ m ∈ mods, fsRead (applyPhase fs mods projectDir csprojPath allUsings failAt buildOk)
        m.filePath = fsRead fs m.filePath)
    ∧ (∀ c, fsRead fs (projectDir ++ "/GlobalUsings.cs".toList) = some c →
        fsRead (applyPhase fs mods projectDir csprojPath allUsings failAt buildOk)
          (projectDir ++ "/GlobalUsings.cs".toList) = some c) := by
  have hany : (mods.any fun m => (fsRead fs m.filePath).isNone) = false := by
    rw [List.any_eq_false]
    intro m hm
    rw [Option.isNone_iff_eq_none]
    intro hN
    have hS := hread m hm
    rw [hN] at hS
    exact absurd hS (by simp)
  obtain ⟨base, happly⟩ : ∃ base,
      applyPhase fs mods projectDir csprojPath allUsings failAt buildOk
        = rollbackChanges base
            (projectBackups fs mods (projectDir ++ "/GlobalUsings.cs".toList)) := by
    unfold applyPhase
    rw [if_neg (by rw [hany]; simp)]
    cases failAt with
    | some k => exact ⟨_, rfl⟩
    | none =>
      rcases hfail with hf | hb
      · exact absurd hf (by simp)
      · rw [hb]
        exact ⟨_, rfl⟩
  have hgnone : ∀ (q : List Char), q ≠ projectDir ++ "/GlobalUsings.cs".toList →
      lastAssoc (match fsRead fs (projectDir ++ "/GlobalUsings.cs".toList) with
        | some c2 => [(projectDir ++ "/GlobalUsings.cs".toList, c2)]
        | none => []) q = none := by
    intro q hq
    cases hgr : fsRead fs (projectDir ++ "/GlobalUsings.cs".toList) with
    | none => rfl
    | some cg =>
      apply lastAssoc_eq_none
      intro b hb
      rw [List.mem_singleton] at hb
      subst hb
      exact hq.symm
  constructor
  · intro m hm
    cases hc : fsRead fs m.filePath with
    | none =>
      have hS := hread m hm
      rw [hc] at hS
      exact absurd hS (by simp)
    | some c =>
      have hla : lastAssoc (projectBackups fs mods
          (projectDir ++ "/GlobalUsings.cs".toList)) m.filePath = some c := by
        unfold projectBackups
        rw [lastAssoc_append, hgnone m.filePath (hg m hm),
          lastAssoc_modBackups mods fs m c hnodup hm hc]
      rw [happly, fsRead_rollback, hla]
  · intro cg hcg
    have hla : lastAssoc (projectBackups fs mods
        (projectDir ++ "/GlobalUsings.cs".toList))
        (projectDir ++ "/GlobalUsings.cs".toList) = some cg := by
      unfold projectBackups
      rw [lastAssoc_append, hcg]
      simp [lastAssoc]
    rw [happly, fsRead_rollback, hla]

/-- Witness for the amended claim C3: the rewritten source file of the
sample project is restored after a failed validation. -/
theorem claim3_amended_witness :
    fsRead (applyPhase sampleFs sampleMods "P".toList "P/p.csproj".toList
        ["using X;".toList] none false) "P/a.cs".toList
      = fsRead sampleFs "P/a.cs".toList :=
  (claim3_amended sampleFs sampleMods "P".toList "P/p.csproj".toList
      ["using X;".toList] none false (Or.inr rfl) (by decide) (by decide)
      (by decide)).1 ⟨"P/a.cs".toList, "namespace A".toList⟩ (by decide)
